import Mathlib

/-!
Verification of the photo-history auto poster (src/auto_poster.py).

Python strings are modelled as lists of characters (a Python `str` is a
sequence of Unicode code points).  The two external image-search services
(`fetch_wikimedia_image`, `fetch_google_books_image`) and the publishing
endpoint are network calls; they are modelled as oracle parameters, a
query returning an optional URL, respectively a payload returning either
a post id or an error.  The Markdown-to-HTML converter (the `markdown`
library) is likewise an oracle `md`.  The document file is modelled by
its contents; a missing file is `Option.none`.
-/

namespace AutoPoster

/-- Model of a Python `str`: a sequence of Unicode code points. -/
abbrev PyStr := List Char

/-- The whitespace characters relevant to the script: what the regex class
matches and what `str.strip` removes, for the ASCII range plus the common
Unicode spaces (no-break space and ideographic space). -/
def isWS (c : Char) : Bool :=
  c = ' ' || c = '\t' || c = '\n' || c = '\r' || c = '\x0b' || c = '\x0c' ||
    c = ' ' || c = '　'

/-- Greedy whitespace consumption; models a whitespace-star item of the regex
when the next item cannot match a whitespace character, and the left half of
`str.strip`. -/
def dropWS (s : PyStr) : PyStr := s.dropWhile isWS

/-- Right half of `str.strip`: remove trailing whitespace. -/
def stripRight (s : PyStr) : PyStr := (s.reverse.dropWhile isWS).reverse

/-- Python `str.strip()`. -/
def pyStrip (s : PyStr) : PyStr := stripRight (dropWS s)

/-- Python `str.startswith` / prefix test used to compile literal regex parts. -/
def startsWithTok : PyStr → PyStr → Bool
  | [], _ => true
  | _ :: _, [] => false
  | a :: as, b :: bs => if a = b then startsWithTok as bs else false

/-- Python `needle in hay` substring test. -/
def containsTok (n : PyStr) : PyStr → Bool
  | [] => n.isEmpty
  | c :: rest => startsWithTok n (c :: rest) || containsTok n rest

/-- A prefix comparison that fails on an actual character mismatch inside
`p` (rather than by `p` being too short); used to show the header marker
cannot overlap itself. -/
def hardFail : PyStr → PyStr → Bool
  | [], _ => false
  | _ :: _, [] => false
  | a :: as, b :: bs => if a = b then hardFail as bs else true

/-!
The entry-marker regex of `ImageFetcher`:

    ^\s*\*\*■\s+(?P<jp_name>.+?)\s*\((?P<en_name>.+?)\s*... [actually] \)\s*[｜|]

compiled to an explicit backtracking matcher.  The leading whitespace stars
are deterministic because the following literal is never whitespace; the two
lazy groups are compiled to shortest-first searches; the one-or-more
whitespace item after the black square backtracks from the longest run
downwards, exactly as the Python engine does.
-/

/-- The regex tail after the en-name group: a close paren, optional
whitespace, then a fullwidth or halfwidth pipe. -/
def closeCheck (l : PyStr) : Bool :=
  match l with
  | ')' :: r =>
    match dropWS r with
    | c :: _ => c = '｜' || c = '|'
    | [] => false
  | _ => false

/-- Lazy search for the en-name group: the shortest nonempty run of
non-newline characters after which the regex tail matches. -/
def findEn : PyStr → Option PyStr
  | [] => none
  | c :: rest =>
    if c = '\n' then none
    else if closeCheck rest then some [c]
    else (findEn rest).map (fun en => c :: en)

/-- The regex part after the jp-name group: optional whitespace, an open
paren, then the en-name group and the tail. -/
def parenCheck (l : PyStr) : Option PyStr :=
  match dropWS l with
  | '(' :: r => findEn r
  | _ => none

/-- Lazy search for the jp-name group: the shortest nonempty run of
non-newline characters after which the rest of the pattern matches. -/
def findJp : PyStr → Option (PyStr × PyStr)
  | [] => none
  | c :: rest =>
    if c = '\n' then none
    else
      match parenCheck rest with
      | some en => some ([c], en)
      | none => (findJp rest).map (fun p => (c :: p.1, p.2))

/-- Greedy backtracking for the one-or-more whitespace item after the black
square: try consuming `w` whitespace characters for `w` from the run length
down to one. -/
def searchWs : Nat → PyStr → Option (PyStr × PyStr)
  | 0, _ => none
  | w + 1, l =>
    match findJp (l.drop (w + 1)) with
    | some r => some r
    | none => searchWs w l

/-- Model of `self.pattern.match(line)`: returns the two captured names
`(jp_name, en_name)` when the entry-marker regex matches the line. -/
def markerMatch (line : PyStr) : Option (PyStr × PyStr) :=
  match dropWS line with
  | '*' :: '*' :: '■' :: rest => searchWs (rest.takeWhile isWS).length rest
  | _ => none

/-- Python truthiness of an optional string (`None` and the empty string are
falsy), as used by `if not image_url` / `if image_url`. -/
def truthy : Option PyStr → Bool
  | none => false
  | some s => !s.isEmpty

/-- The fallback chain of `process_file`:
`image_url = A(en); if not image_url: image_url = B(en); if image_url: ...`.
Returns the url that gets inserted, or `none` when no insertion happens. -/
def pickUrl (a b : Option PyStr) : Option PyStr :=
  let u := if truthy a then a else b
  if truthy u then u else none

/-- The element appended on success:
an f-string rendering of the bang-bracket reference followed by a blank
line, in one element of `new_lines`. -/
def imgLine (jp en url : PyStr) : PyStr :=
  ['!', '['] ++ jp ++ [' ', '('] ++ en ++ [')', ']', '('] ++ url ++ [')', '\n', '\n']

/-- The image-reference line proper (the element above without its final
newline); used to state line-level facts. -/
def imgRef (jp en url : PyStr) : PyStr :=
  ['!', '['] ++ jp ++ [' ', '('] ++ en ++ [')', ']', '('] ++ url ++ [')', '\n']

/-- The idempotency token checked on the following line. -/
def imgTok : PyStr := ['!', '[']

/-- The look-ahead check `i < len(lines) and lines[i].strip().startswith("![")`
on the suffix of the input line list. -/
def nextIsImage : List PyStr → Bool
  | [] => false
  | next :: _ => startsWithTok imgTok (pyStrip next)

/-- The scan loop of `ImageFetcher.process_file` over the line list: every
input line is copied; after a line matching the entry-marker regex, unless
the following input line (stripped) starts with the image token, the image
sources are consulted and on success the reference element is appended. -/
def processLines (A B : PyStr → Option PyStr) : List PyStr → List PyStr
  | [] => []
  | line :: rest =>
    match markerMatch line with
    | none => line :: processLines A B rest
    | some (jp, en) =>
      if nextIsImage rest then line :: processLines A B rest
      else
        match pickUrl (A en) (B en) with
        | some url => line :: imgLine jp en url :: processLines A B rest
        | none => line :: processLines A B rest

/-- Python `f.readlines()` on the file contents: split after every newline,
keeping the terminators; a last unterminated piece is kept. -/
def readlinesAux (acc : PyStr) : PyStr → List PyStr
  | [] => if acc.isEmpty then [] else [acc.reverse]
  | c :: rest =>
    if c = '\n' then (acc.reverse ++ ['\n']) :: readlinesAux [] rest
    else readlinesAux (c :: acc) rest

/-- Python `f.readlines()` on the whole contents. -/
def readlines (s : PyStr) : List PyStr := readlinesAux [] s

/-- Python `f.writelines(new_lines)`: concatenation. -/
def joinAll : List PyStr → PyStr
  | [] => []
  | l :: ls => l ++ joinAll ls

/-- Model of `ImageFetcher.process_file` on an existing file: read the lines, run the
scan, write the concatenation back.  `A` and `B` are the two image-source
oracles (Wikimedia search and Google Books search). -/
def process_file (A B : PyStr → Option PyStr) (contents : PyStr) : PyStr :=
  joinAll (processLines A B (readlines contents))

/-- Model of `ImageFetcher.process_file` including the existence check: on a missing
file it reports and returns without touching anything (result `none` means
no write happened). -/
def process_file_fs (A B : PyStr → Option PyStr) (file : Option PyStr) : Option PyStr :=
  match file with
  | none => none
  | some contents => some (process_file A B contents)

/-!
The splitter/publisher (`WordPressPoster`).
-/

/-- The header marker token of `split_articles`. -/
def headerTok : PyStr := ['#', '#', ' ', '記', '事', 'V', 'o', 'l']

/-- The title marker token of `split_articles`. -/
def titleTok : PyStr := ['#', '#', '#', ' ', 'タ', 'イ', 'ト', 'ル', '：']

/-- The `re.split` with a zero-width lookahead pattern: the text is cut
before every occurrence of the marker (a match at position zero produces a
leading empty piece, and after a cut the scan resumes at the next
character, so the marker at the start of the new piece is not cut again). -/
def splitAux (marker : PyStr) (acc : PyStr) : PyStr → List PyStr
  | [] => [acc.reverse]
  | c :: rest =>
    if startsWithTok marker (c :: rest) then acc.reverse :: splitAux marker [c] rest
    else splitAux marker (c :: acc) rest

/-- Model of `re.split(r'(?=## 記事Vol)', content)`. -/
def splitParts (content : PyStr) : List PyStr := splitAux headerTok [] content

/-- The retention test: `if not part.strip() or "## 記事Vol" not in part:
continue` keeps a part iff it is non-blank and contains the header marker. -/
def keepPart (part : PyStr) : Bool :=
  !(pyStrip part).isEmpty && containsTok headerTok part

/-- Model of `re.search(r'### タイトル：(.+)', part)`: scan left to right for the
title token followed by at least one non-newline character; on success
return the whole matched text (group zero) and the greedy rest-of-line
capture (group one). -/
def titleFind : PyStr → Option (PyStr × PyStr)
  | [] => none
  | c :: rest =>
    if startsWithTok titleTok (c :: rest) then
      let t := ((c :: rest).drop titleTok.length).takeWhile (fun d => if d = '\n' then false else true)
      if t.isEmpty then titleFind rest else some (titleTok ++ t, t)
    else titleFind rest

/-- Worker for Python `str.replace(needle, "")` with a nonempty needle:
remove the non-overlapping occurrences left to right.  The fuel argument is
the length of the text, so the recursion is structural. -/
def replaceAllGo (n0 : Char) (ntail : PyStr) : Nat → PyStr → PyStr
  | _, [] => []
  | 0, l => l
  | fuel + 1, c :: rest =>
    if startsWithTok (n0 :: ntail) (c :: rest) then
      replaceAllGo n0 ntail fuel (rest.drop ntail.length)
    else c :: replaceAllGo n0 ntail fuel rest

/-- Python `part.replace(needle, "")` (the needle passed by the code is the
matched title text, which is never empty). -/
def pyReplaceDel (needle part : PyStr) : PyStr :=
  match needle with
  | [] => part
  | n :: ns => replaceAllGo n ns part.length part

/-- Python `str.replace("#", "")`: drop every hash character. -/
def removeHash (s : PyStr) : PyStr :=
  s.filter (fun c => if c = '#' then false else true)

/-- Python `s.split('\n')[0]`: the first line of a text. -/
def firstLineOf (s : PyStr) : PyStr :=
  s.takeWhile (fun c => if c = '\n' then false else true)

/-- The fallback title of `split_articles`:
`part.strip().split('\n')[0].replace("#", "").strip()`. -/
def fallbackTitle (part : PyStr) : PyStr :=
  pyStrip (removeHash (firstLineOf (pyStrip part)))

/-- An article record `{title, content}`. -/
structure Article where
  title : PyStr
  content : PyStr
deriving DecidableEq, Inhabited

/-- The per-section step of `split_articles`: extract the title (removing
the matched title text from the body on success, falling back to the first
line otherwise) and render the remaining body with the Markdown converter
`md`. -/
def mkArticle (md : PyStr → PyStr) (part : PyStr) : Article :=
  match titleFind part with
  | some (g0, t) => { title := pyStrip t, content := md (pyReplaceDel g0 part) }
  | none => { title := fallbackTitle part, content := md part }

/-- Model of `WordPressPoster.split_articles`. -/
def split_articles (md : PyStr → PyStr) (content : PyStr) : List Article :=
  ((splitParts content).filter keepPart).map (mkArticle md)

/-- The three environment values read by `WordPressPoster.__init__`. -/
structure Env where
  WP_USER : Option PyStr
  WP_APP_PASSWORD : Option PyStr
  WP_SITE_URL : Option PyStr

/-- The placeholder site url checked by the entry point. -/
def placeholderSite : PyStr :=
  ['h', 't', 't', 'p', 's', ':', '/', '/', 'e', 'x', 'a', 'm', 'p', 'l', 'e', '.', 'c', 'o', 'm']

/-- The REST route appended to the site url. -/
def postsPath : PyStr :=
  ['/', 'w', 'p', '-', 'j', 's', 'o', 'n', '/', 'w', 'p', '/', 'v', '2', '/', 'p', 'o', 's', 't', 's']

/-- Python f-string rendering of a possibly absent value (`None` prints as
the four letters). -/
def pyShowOpt : Option PyStr → PyStr
  | none => ['N', 'o', 'n', 'e']
  | some s => s

/-- Model of the url computation of `post_article`. -/
def postsUrl (site : Option PyStr) : PyStr := pyShowOpt site ++ postsPath

/-- The entry point's dry-run determination: the command-line flag, or the
site url equal to the placeholder. -/
def mainDryRun (argvFlag : Bool) (env : Env) : Bool :=
  argvFlag || decide (env.WP_SITE_URL = some placeholderSite)

/-- Model of `WordPressPoster.__init__`: the constructor flag, further forced to
dry-run when any of the three credentials is absent or empty
(`not all([user, password, site])`). -/
def posterDryRun (argvFlag : Bool) (env : Env) : Bool :=
  mainDryRun argvFlag env ||
    !(truthy env.WP_USER && truthy env.WP_APP_PASSWORD && truthy env.WP_SITE_URL)

/-- Outcome of `post_article` for one article: a simulated-post log line
(dry run), a success log with the returned id, or a caught-and-logged
failure. -/
inductive PostAction where
  | simulated (title endpoint preview : PyStr)
  | posted (title : PyStr) (postId : Nat)
  | failed (title err : PyStr)
deriving DecidableEq

/-- Model of `WordPressPoster.post_article`: in dry-run mode log the title, the
endpoint and the hundred-character content preview and perform no network
call; otherwise submit through the network oracle `net`, and catch any
failure (the try/except makes the step total). -/
def post_article (net : PyStr → PyStr → Except PyStr Nat) (dry : Bool)
    (site : Option PyStr) (a : Article) : PostAction :=
  if dry then PostAction.simulated a.title (postsUrl site) (a.content.take 100)
  else
    match net a.title a.content with
    | Except.ok pid => PostAction.posted a.title pid
    | Except.error e => PostAction.failed a.title e

/-- Model of `WordPressPoster.process`: report and do nothing on a missing file;
otherwise split the contents and post every article in document order. -/
def wpProcess (net : PyStr → PyStr → Except PyStr Nat) (dry : Bool)
    (site : Option PyStr) (md : PyStr → PyStr) (file : Option PyStr) : List PostAction :=
  match file with
  | none => []
  | some contents => (split_articles md contents).map (post_article net dry site)

/-!
A second split definition, following the words of the specification claim
for comparison with the one compiled from the source.
-/

/-- Modelled from the spec claim wording (claim C4): a lookahead split of
the text only at positions where the header marker token begins a line
(position zero or right after a newline). -/
def splitAuxLineStart (marker : PyStr) (prev : Option Char) (acc : PyStr) :
    PyStr → List PyStr
  | [] => [acc.reverse]
  | c :: rest =>
    if (prev.isNone || decide (prev = some '\n')) && startsWithTok marker (c :: rest) then
      acc.reverse :: splitAuxLineStart marker (some c) [c] rest
    else splitAuxLineStart marker (some c) (c :: acc) rest

/-- Modelled from the spec claim wording (claim C4): the line-anchored split. -/
def splitPartsLineStart (content : PyStr) : List PyStr :=
  splitAuxLineStart headerTok none [] content

/-- Modelled from the spec claim wording (claim C4): `split_articles` with
the line-anchored split, retention and per-section step unchanged. -/
def split_articles_lineStart (md : PyStr → PyStr) (content : PyStr) : List Article :=
  ((splitPartsLineStart content).filter keepPart).map (mkArticle md)

/-- Modelled from the spec claim wording (claim C6): the fallback title as
the first line with its leading hash characters stripped (instead of every
hash character removed). -/
def specFallbackTitle (part : PyStr) : PyStr :=
  pyStrip ((firstLineOf (pyStrip part)).dropWhile (fun c => if c = '#' then true else false))

/-!
Auxiliary notions used by the statements and proofs.
-/

/-- An optional query result whose url (if any) contains no newline; the
sources of section six of the design return urls, which are single-line. -/
def nlFree (o : Option PyStr) : Bool :=
  match o with
  | none => true
  | some u => decide ('\n' ∉ u)

/-- Re-reading a written line list: each element split again into lines. -/
def shredList : List PyStr → List PyStr
  | [] => []
  | l :: ls => readlines l ++ shredList ls

/-- A line as produced by `readlines` on a newline-terminated text: nonempty,
with its single newline at the end. -/
def properLine (l : PyStr) : Prop := ∃ h, l = h ++ ['\n'] ∧ '\n' ∉ h

/-- A written element that re-splits cleanly: empty or newline-terminated. -/
def endsNl (l : PyStr) : Prop := l = [] ∨ l.getLast? = some '\n'

/-- A line element appended by the enricher (rather than copied). -/
def isInserted (x : PyStr) : Prop := ∃ jp en u, x = imgLine jp en u

/-!
Branch lemmas for the enricher scan.
-/

lemma pl_nil (A B : PyStr → Option PyStr) : processLines A B [] = [] := rfl

lemma pl_none (A B : PyStr → Option PyStr) (line : PyStr) (rest : List PyStr)
    (h : markerMatch line = none) :
    processLines A B (line :: rest) = line :: processLines A B rest := by
  simp only [processLines, h]

lemma pl_skip (A B : PyStr → Option PyStr) (line : PyStr) (rest : List PyStr)
    (jp en : PyStr) (h : markerMatch line = some (jp, en)) (hn : nextIsImage rest = true) :
    processLines A B (line :: rest) = line :: processLines A B rest := by
  simp only [processLines, h, hn, if_true]

lemma pl_ins (A B : PyStr → Option PyStr) (line : PyStr) (rest : List PyStr)
    (jp en u : PyStr) (h : markerMatch line = some (jp, en)) (hn : nextIsImage rest = false)
    (hp : pickUrl (A en) (B en) = some u) :
    processLines A B (line :: rest) = line :: imgLine jp en u :: processLines A B rest := by
  simp only [processLines, h, hn, hp, if_false, Bool.false_eq_true]

lemma pl_noins (A B : PyStr → Option PyStr) (line : PyStr) (rest : List PyStr)
    (jp en : PyStr) (h : markerMatch line = some (jp, en)) (hn : nextIsImage rest = false)
    (hp : pickUrl (A en) (B en) = none) :
    processLines A B (line :: rest) = line :: processLines A B rest := by
  simp only [processLines, h, hn, hp, if_false, Bool.false_eq_true]

lemma pl_shape (A B : PyStr → Option PyStr) (a : PyStr) (r : List PyStr) :
    processLines A B (a :: r) = a :: processLines A B r ∨
      ∃ jp en u, processLines A B (a :: r) = a :: imgLine jp en u :: processLines A B r := by
  cases hm : markerMatch a with
  | none => exact Or.inl (pl_none A B a r hm)
  | some p =>
    obtain ⟨jp, en⟩ := p
    cases hn : nextIsImage r with
    | true => exact Or.inl (pl_skip A B a r jp en hm hn)
    | false =>
      cases hp : pickUrl (A en) (B en) with
      | none => exact Or.inl (pl_noins A B a r jp en hm hn hp)
      | some u => exact Or.inr ⟨jp, en, u, pl_ins A B a r jp en u hm hn hp⟩

/-- Processing a prefix of the document only prepends output: the scan of
`pre ++ tail` is some supersequence of `pre` (copies plus inserted image
elements) followed by the scan of `tail`. -/
lemma processLines_decomp (A B : PyStr → Option PyStr) (pre tail : List PyStr) :
    ∃ op, processLines A B (pre ++ tail) = op ++ processLines A B tail ∧
      List.Sublist pre op ∧ ∀ x ∈ op, x ∈ pre ∨ isInserted x := by
  induction pre with
  | nil => exact ⟨[], rfl, List.nil_sublist _, by simp⟩
  | cons a pre ih =>
    obtain ⟨op, heq, hsub, hmem⟩ := ih
    rcases pl_shape A B a (pre ++ tail) with hs | ⟨jp, en, u, hs⟩
    · refine ⟨a :: op, ?_, List.Sublist.cons₂ a hsub, ?_⟩
      · simp [hs, heq]
      · intro x hx
        rcases List.mem_cons.mp hx with hx | hx
        · exact Or.inl (by simp [hx])
        · rcases hmem x hx with h | h
          · exact Or.inl (by simp [h])
          · exact Or.inr h
    · refine ⟨a :: imgLine jp en u :: op, ?_, ?_, ?_⟩
      · simp [hs, heq]
      · exact List.Sublist.cons₂ a (List.Sublist.cons _ hsub)
      · intro x hx
        rcases List.mem_cons.mp hx with hx | hx
        · exact Or.inl (by simp [hx])
        · rcases List.mem_cons.mp hx with hx | hx
          · exact Or.inr ⟨jp, en, u, hx⟩
          · rcases hmem x hx with h | h
            · exact Or.inl (by simp [h])
            · exact Or.inr h

/-- Every input line survives, unchanged and in order. -/
lemma sublist_processLines (A B : PyStr → Option PyStr) (L : List PyStr) :
    List.Sublist L (processLines A B L) := by
  induction L with
  | nil => exact List.Sublist.refl _
  | cons a r ih =>
    rcases pl_shape A B a r with hs | ⟨jp, en, u, hs⟩
    · rw [hs]; exact List.Sublist.cons₂ a ih
    · rw [hs]; exact List.Sublist.cons₂ a (List.Sublist.cons _ ih)

/-!
Lemmas on the url fallback chain.
-/

lemma pickUrl_first (b : Option PyStr) (u : PyStr) (hu : u ≠ []) :
    pickUrl (some u) b = some u := by
  have ht : truthy (some u) = true := by
    simp [truthy, List.isEmpty_iff, hu]
  simp [pickUrl, ht]

lemma pickUrl_fallback (a b : Option PyStr) (u : PyStr) (ha : truthy a = false)
    (hb : b = some u) (hu : u ≠ []) :
    pickUrl a b = some u := by
  have ht : truthy (some u) = true := by
    simp [truthy, List.isEmpty_iff, hu]
  simp [pickUrl, ha, hb, ht]

lemma pickUrl_none (a b : Option PyStr) (ha : truthy a = false) (hb : truthy b = false) :
    pickUrl a b = none := by
  simp [pickUrl, ha, hb]

lemma pickUrl_cases (a b : Option PyStr) (u : PyStr) (h : pickUrl a b = some u) :
    a = some u ∨ b = some u := by
  by_cases ha : truthy a = true
  · simp only [pickUrl, ha, if_true] at h
    exact Or.inl h
  · have ha' : truthy a = false := by simpa using ha
    simp only [pickUrl, ha', if_false, Bool.false_eq_true] at h
    split at h
    · exact Or.inr h
    · exact absurd h (by simp)

/-!
Lemmas about re-reading a written file, for the idempotence analysis.
-/

lemma readlinesAux_cons (acc : PyStr) (c : Char) (rest : PyStr) :
    readlinesAux acc (c :: rest)
      = if c = '\n' then (acc.reverse ++ ['\n']) :: readlinesAux [] rest
        else readlinesAux (c :: acc) rest := rfl

lemma readlinesAux_push : ∀ (h : PyStr), '\n' ∉ h →
    ∀ (acc s : PyStr), readlinesAux acc (h ++ s) = readlinesAux (h.reverse ++ acc) s := by
  intro h
  induction h with
  | nil => intro _ acc s; simp
  | cons c t ih =>
    intro hh acc s
    have hc : c ≠ '\n' := by intro e; exact hh (by simp [e])
    have ht : '\n' ∉ t := fun e => hh (by simp [e])
    rw [List.cons_append, readlinesAux_cons, if_neg hc, ih ht (c :: acc) s]
    simp

lemma readlines_proper (l : PyStr) (hl : properLine l) : readlines l = [l] := by
  obtain ⟨h, rfl, hh⟩ := hl
  unfold readlines
  rw [readlinesAux_push h hh [] ['\n']]
  simp [readlinesAux]

lemma readlinesAux_append : ∀ (a : PyStr), a.getLast? = some '\n' →
    ∀ (acc b : PyStr), readlinesAux acc (a ++ b) = readlinesAux acc a ++ readlinesAux [] b := by
  intro a
  induction a with
  | nil => intro h; simp at h
  | cons c t ih =>
    intro h acc b
    cases t with
    | nil =>
      have hc : c = '\n' := by simpa using h
      subst hc
      simp [readlinesAux]
    | cons d t2 =>
      have h2 : (d :: t2).getLast? = some '\n' := by
        rw [List.getLast?_cons_cons] at h; exact h
      by_cases hc : c = '\n'
      · subst hc
        rw [List.cons_append, readlinesAux_cons, if_pos rfl, ih h2 [] b]
        simp [readlinesAux_cons]
      · rw [List.cons_append, readlinesAux_cons, if_neg hc, ih h2 (c :: acc) b]
        simp [readlinesAux_cons, hc]

lemma readlines_append (a b : PyStr) (ha : endsNl a) :
    readlines (a ++ b) = readlines a ++ readlines b := by
  rcases ha with rfl | ha
  · simp [readlines, readlinesAux]
  · exact readlinesAux_append a ha [] b

lemma readlines_joinAll : ∀ (ls : List PyStr), (∀ l ∈ ls, endsNl l) →
    readlines (joinAll ls) = shredList ls := by
  intro ls
  induction ls with
  | nil => intro _; rfl
  | cons l r ih =>
    intro h
    simp only [joinAll, shredList]
    rw [readlines_append l (joinAll r) (h l (by simp))]
    rw [ih (fun x hx => h x (by simp [hx]))]

lemma joinAll_readlinesAux : ∀ (s acc : PyStr), joinAll (readlinesAux acc s) = acc.reverse ++ s := by
  intro s
  induction s with
  | nil =>
    intro acc
    by_cases h : acc = []
    · subst h; simp [readlinesAux, joinAll]
    · simp [readlinesAux, joinAll, h]
  | cons c rest ih =>
    intro acc
    by_cases hc : c = '\n'
    · subst hc
      simp only [readlinesAux, if_pos rfl, joinAll]
      rw [ih []]
      simp
    · simp only [readlinesAux, if_neg hc]
      rw [ih (c :: acc)]
      simp

lemma joinAll_readlines (s : PyStr) : joinAll (readlines s) = s := by
  simpa using joinAll_readlinesAux s []

lemma joinAll_append : ∀ (xs ys : List PyStr), joinAll (xs ++ ys) = joinAll xs ++ joinAll ys := by
  intro xs ys
  induction xs with
  | nil => rfl
  | cons l r ih => simp [joinAll, ih]

lemma joinAll_shredList : ∀ (ls : List PyStr), joinAll (shredList ls) = joinAll ls := by
  intro ls
  induction ls with
  | nil => rfl
  | cons l r ih =>
    simp only [shredList, joinAll, joinAll_append, joinAll_readlines, ih]

lemma imgLine_eq (jp en u : PyStr) : imgLine jp en u = imgRef jp en u ++ ['\n'] := by
  simp [imgLine, imgRef]

lemma readlines_imgLine (jp en u : PyStr) (hjp : '\n' ∉ jp) (hen : '\n' ∉ en)
    (hu : '\n' ∉ u) :
    readlines (imgLine jp en u) = [imgRef jp en u, ['\n']] := by
  have hbody : '\n' ∉ ['!', '['] ++ jp ++ [' ', '('] ++ en ++ [')', ']', '('] ++ u ++ [')'] := by
    intro hmem
    simp only [List.mem_append, List.mem_cons, List.mem_singleton] at hmem
    rcases hmem with ((((((h | h) | h) | h) | h) | h) | h) <;>
      first
        | exact hjp h
        | exact hen h
        | exact hu h
        | simp_all
  have hdec : imgLine jp en u
      = (['!', '['] ++ jp ++ [' ', '('] ++ en ++ [')', ']', '('] ++ u ++ [')']) ++ ['\n', '\n'] := by
    simp [imgLine]
  rw [hdec, readlines, readlinesAux_push _ hbody [] _]
  simp [readlinesAux, imgRef]

/-!
Negative marker-match lemmas: inserted elements never look like markers.
-/

lemma dropWS_cons_of_not_ws (c : Char) (t : PyStr) (h : isWS c = false) :
    dropWS (c :: t) = c :: t := by
  simp [dropWS, List.dropWhile_cons, h]

lemma markerMatch_none_of_head (line : PyStr) (c : Char) (t : PyStr)
    (hd : dropWS line = c :: t) (hc : c ≠ '*') : markerMatch line = none := by
  unfold markerMatch
  rw [hd]
  split
  · rename_i rest heq
    rw [List.cons_eq_cons] at heq
    exact absurd heq.1 hc
  · rfl

lemma markerMatch_blank : markerMatch ['\n'] = none := by decide

lemma markerMatch_imgRef (jp en u : PyStr) : markerMatch (imgRef jp en u) = none := by
  have hshape : imgRef jp en u
      = '!' :: ('[' :: (jp ++ [' ', '('] ++ en ++ [')', ']', '('] ++ u ++ [')', '\n'])) := by
    simp [imgRef]
  rw [hshape]
  exact markerMatch_none_of_head _ '!' _
    (dropWS_cons_of_not_ws '!' _ (by decide)) (by decide)

lemma stripRight_prefix (y : PyStr) : ∃ w, y = stripRight y ++ w := by
  refine ⟨(y.reverse.takeWhile isWS).reverse, ?_⟩
  conv_lhs => rw [← List.reverse_reverse y,
    ← List.takeWhile_append_dropWhile (p := isWS) (l := y.reverse)]
  rw [List.reverse_append]
  rfl

lemma startsWith_imgTok_shape (s : PyStr) (h : startsWithTok imgTok s = true) :
    ∃ t, s = '!' :: '[' :: t := by
  cases s with
  | nil => exact absurd h (by simp [imgTok, startsWithTok])
  | cons a s1 =>
    cases s1 with
    | nil =>
      exfalso
      by_cases h1 : ('!' : Char) = a <;> simp [imgTok, startsWithTok, h1] at h
    | cons b t =>
      by_cases h1 : ('!' : Char) = a
      · by_cases h2 : ('[' : Char) = b
        · exact ⟨t, by rw [← h1, ← h2]⟩
        · exfalso; simp [imgTok, startsWithTok, h1, h2] at h
      · exfalso; simp [imgTok, startsWithTok, h1] at h

lemma markerMatch_of_stripImg (X : PyStr) (h : startsWithTok imgTok (pyStrip X) = true) :
    markerMatch X = none := by
  obtain ⟨t, ht⟩ := startsWith_imgTok_shape _ h
  obtain ⟨w, hw⟩ := stripRight_prefix (dropWS X)
  rw [show stripRight (dropWS X) = pyStrip X from rfl, ht] at hw
  simp only [List.cons_append] at hw
  exact markerMatch_none_of_head X '!' _ hw (by decide)

lemma stripRight_concat_close (X : PyStr) : stripRight (X ++ [')', '\n']) = X ++ [')'] := by
  have h1 : isWS '\n' = true := by decide
  have h2 : isWS ')' = false := by decide
  simp [stripRight, List.reverse_append, List.dropWhile_cons, h1, h2]

lemma strip_imgRef_starts (jp en u : PyStr) :
    startsWithTok imgTok (pyStrip (imgRef jp en u)) = true := by
  have hdrop : dropWS (imgRef jp en u) = imgRef jp en u := by
    have hb : isWS '!' = false := by decide
    have hshape : imgRef jp en u
        = '!' :: ('[' :: (jp ++ [' ', '('] ++ en ++ [')', ']', '('] ++ u ++ [')', '\n'])) := by
      simp [imgRef]
    rw [hshape]
    exact dropWS_cons_of_not_ws _ _ hb
  have hsplit : imgRef jp en u
      = (['!', '['] ++ jp ++ [' ', '('] ++ en ++ [')', ']', '('] ++ u) ++ [')', '\n'] := by
    simp [imgRef]
  rw [pyStrip, hdrop, hsplit, stripRight_concat_close]
  simp [imgTok, startsWithTok]

/-!
The captured names contain no newline (they are matched by dot items).
-/

lemma findEn_noNl : ∀ (l en : PyStr), findEn l = some en → '\n' ∉ en := by
  intro l
  induction l with
  | nil => intro en h; simp [findEn] at h
  | cons c rest ih =>
    intro en h
    by_cases hc : c = '\n'
    · simp [findEn, hc] at h
    · simp only [findEn, if_neg hc] at h
      by_cases hcl : closeCheck rest = true
      · rw [if_pos hcl] at h
        cases h
        intro hmem
        rcases List.mem_cons.mp hmem with h3 | h3
        · exact hc h3.symm
        · simp at h3
      · rw [if_neg hcl] at h
        simp only [Option.map_eq_some'] at h
        obtain ⟨en2, h2, rfl⟩ := h
        intro hmem
        rcases List.mem_cons.mp hmem with h3 | h3
        · exact hc h3.symm
        · exact ih en2 h2 h3

lemma parenCheck_noNl (l en : PyStr) (h : parenCheck l = some en) : '\n' ∉ en := by
  unfold parenCheck at h
  split at h
  · exact findEn_noNl _ _ h
  · exact absurd h (by simp)

lemma findJp_noNl : ∀ (l jp en : PyStr), findJp l = some (jp, en) → '\n' ∉ jp ∧ '\n' ∉ en := by
  intro l
  induction l with
  | nil => intro jp en h; simp [findJp] at h
  | cons c rest ih =>
    intro jp en h
    by_cases hc : c = '\n'
    · simp [findJp, hc] at h
    · simp only [findJp, if_neg hc] at h
      cases hpc : parenCheck rest with
      | some en2 =>
        rw [hpc] at h
        cases h
        refine ⟨?_, parenCheck_noNl _ _ hpc⟩
        intro hmem
        rcases List.mem_cons.mp hmem with h3 | h3
        · exact hc h3.symm
        · simp at h3
      | none =>
        rw [hpc] at h
        simp only [Option.map_eq_some'] at h
        obtain ⟨⟨jp2, en2⟩, h2, hout⟩ := h
        cases hout
        obtain ⟨hj, he⟩ := ih jp2 en2 h2
        refine ⟨?_, he⟩
        intro hmem
        rcases List.mem_cons.mp hmem with h3 | h3
        · exact hc h3.symm
        · exact hj h3

lemma searchWs_noNl : ∀ (w : Nat) (l jp en : PyStr),
    searchWs w l = some (jp, en) → '\n' ∉ jp ∧ '\n' ∉ en := by
  intro w
  induction w with
  | zero => intro l jp en h; simp [searchWs] at h
  | succ w ih =>
    intro l jp en h
    simp only [searchWs] at h
    cases hf : findJp (l.drop (w + 1)) with
    | some r =>
      obtain ⟨rjp, ren⟩ := r
      rw [hf] at h
      cases h
      exact findJp_noNl _ _ _ hf
    | none =>
      rw [hf] at h
      exact ih l jp en h

lemma markerMatch_noNl (l jp en : PyStr) (h : markerMatch l = some (jp, en)) :
    '\n' ∉ jp ∧ '\n' ∉ en := by
  unfold markerMatch at h
  split at h
  · exact searchWs_noNl _ _ _ _ h
  · exact absurd h (by simp)

lemma pl_head (A B : PyStr → Option PyStr) (x : PyStr) (r : List PyStr) :
    ∃ t, processLines A B (x :: r) = x :: t := by
  rcases pl_shape A B x r with hs | ⟨jp, en, u, hs⟩
  · exact ⟨_, hs⟩
  · exact ⟨_, hs⟩

lemma properLine_endsNl (l : PyStr) (h : properLine l) : endsNl l := by
  obtain ⟨hh, rfl, _⟩ := h
  exact Or.inr (List.getLast?_concat _)

lemma processLines_endsNl (A B : PyStr → Option PyStr) :
    ∀ (L : List PyStr), (∀ l ∈ L, endsNl l) → ∀ x ∈ processLines A B L, endsNl x := by
  intro L
  induction L with
  | nil => intro _ x hx; simp [processLines] at hx
  | cons a r ih =>
    intro h x hx
    have ha := h a (by simp)
    have hr : ∀ l ∈ r, endsNl l := fun l hl => h l (by simp [hl])
    rcases pl_shape A B a r with hs | ⟨jp, en, u, hs⟩
    · rw [hs] at hx
      rcases List.mem_cons.mp hx with rfl | hx
      · exact ha
      · exact ih hr x hx
    · rw [hs] at hx
      rcases List.mem_cons.mp hx with rfl | hx
      · exact ha
      · rcases List.mem_cons.mp hx with rfl | hx
        · refine Or.inr ?_
          rw [imgLine_eq]
          exact List.getLast?_concat _
        · exact ih hr x hx

lemma readlinesAux_proper : ∀ (s acc : PyStr), '\n' ∉ acc →
    (s = [] → acc = []) → (s ≠ [] → s.getLast? = some '\n') →
    ∀ l ∈ readlinesAux acc s, properLine l := by
  intro s
  induction s with
  | nil =>
    intro acc hacc hempty _ l hl
    rw [hempty rfl] at hl
    simp [readlinesAux] at hl
  | cons c rest ih =>
    intro acc hacc hempty hlast l hl
    by_cases hc : c = '\n'
    · subst hc
      rw [readlinesAux_cons, if_pos rfl] at hl
      rcases List.mem_cons.mp hl with rfl | hl
      · exact ⟨acc.reverse, rfl, by simpa using hacc⟩
      · refine ih [] (by simp) (fun _ => rfl) ?_ l hl
        intro hne
        have hg := hlast (by simp)
        cases rest with
        | nil => exact absurd rfl hne
        | cons d t2 => rw [List.getLast?_cons_cons] at hg; exact hg
    · rw [readlinesAux_cons, if_neg hc] at hl
      refine ih (c :: acc) ?_ ?_ ?_ l hl
      · intro hmem
        rcases List.mem_cons.mp hmem with h1 | h1
        · exact hc h1.symm
        · exact hacc h1
      · intro hrest
        exfalso
        subst hrest
        have hg := hlast (by simp)
        simp at hg
        exact hc hg
      · intro hne
        have hg := hlast (by simp)
        cases rest with
        | nil => exact absurd rfl hne
        | cons d t2 => rw [List.getLast?_cons_cons] at hg; exact hg

lemma readlines_all_proper (c : PyStr) (h : c = [] ∨ c.getLast? = some '\n') :
    ∀ l ∈ readlines c, properLine l := by
  rcases h with rfl | h
  · intro l hl; simp [readlines, readlinesAux] at hl
  · exact readlinesAux_proper c [] (by simp) (fun _ => rfl) (fun _ => h)

/-- The heart of the idempotence analysis: re-reading the written output of
the scan and scanning it again reproduces it line for line, provided the
original lines were properly newline-terminated and the sources return
single-line urls. -/
lemma processLines_shred_fixed (A B : PyStr → Option PyStr)
    (hA : ∀ q, nlFree (A q) = true) (hB : ∀ q, nlFree (B q) = true) :
    ∀ (L : List PyStr), (∀ l ∈ L, properLine l) →
      processLines A B (shredList (processLines A B L))
        = shredList (processLines A B L) := by
  intro L
  induction L with
  | nil => intro _; rfl
  | cons l rest ih =>
    intro h
    have hl := h l (by simp)
    have hrest : ∀ x ∈ rest, properLine x := fun x hx => h x (by simp [hx])
    have ihr := ih hrest
    cases hm : markerMatch l with
    | none =>
      rw [pl_none A B l rest hm, shredList, readlines_proper l hl,
        List.singleton_append, pl_none A B l _ hm, ihr]
    | some p =>
      obtain ⟨jp, en⟩ := p
      cases hn : nextIsImage rest with
      | true =>
        cases rest with
        | nil => simp [nextIsImage] at hn
        | cons x rest2 =>
          rw [pl_skip A B l (x :: rest2) jp en hm hn, shredList,
            readlines_proper l hl, List.singleton_append]
          have hx : properLine x := h x (by simp)
          obtain ⟨t2, ht2⟩ := pl_head A B x rest2
          have hni2 : nextIsImage (shredList (processLines A B (x :: rest2))) = true := by
            rw [ht2, shredList, readlines_proper x hx, List.singleton_append]
            simpa [nextIsImage] using hn
          rw [pl_skip A B l _ jp en hm hni2, ihr]
      | false =>
        cases hp : pickUrl (A en) (B en) with
        | none =>
          rw [pl_noins A B l rest jp en hm hn hp, shredList,
            readlines_proper l hl, List.singleton_append]
          have hni2 : nextIsImage (shredList (processLines A B rest)) = false := by
            cases rest with
            | nil => rfl
            | cons x rest2 =>
              have hx : properLine x := h x (by simp)
              obtain ⟨t2, ht2⟩ := pl_head A B x rest2
              rw [ht2, shredList, readlines_proper x hx, List.singleton_append]
              simpa [nextIsImage] using hn
          rw [pl_noins A B l _ jp en hm hni2 hp, ihr]
        | some u =>
          obtain ⟨hjp, hen⟩ := markerMatch_noNl l jp en hm
          have hu : '\n' ∉ u := by
            rcases pickUrl_cases _ _ u hp with hc | hc
            · have hq := hA en; rw [hc] at hq; simpa [nlFree] using hq
            · have hq := hB en; rw [hc] at hq; simpa [nlFree] using hq
          rw [pl_ins A B l rest jp en u hm hn hp, shredList, readlines_proper l hl,
            List.singleton_append, shredList, readlines_imgLine jp en u hjp hen hu]
          have hni2 : nextIsImage
              ([imgRef jp en u, ['\n']] ++ shredList (processLines A B rest)) = true := by
            simp [nextIsImage, strip_imgRef_starts]
          rw [pl_skip A B l _ jp en hm hni2]
          simp only [List.cons_append, List.nil_append]
          rw [pl_none A B (imgRef jp en u) _ (markerMatch_imgRef jp en u),
            pl_none A B ['\n'] _ markerMatch_blank, ihr]

/-!
Prefix and substring lemmas.
-/

lemma startsWith_of_append (n z : PyStr) : startsWithTok n (n ++ z) = true := by
  induction n with
  | nil => rfl
  | cons a as ih => simp [startsWithTok, ih]

lemma startsWith_refl (n : PyStr) : startsWithTok n n = true := by
  simpa using startsWith_of_append n []

lemma startsWith_dest : ∀ (n s : PyStr), startsWithTok n s = true → ∃ z, s = n ++ z := by
  intro n
  induction n with
  | nil => intro s _; exact ⟨s, rfl⟩
  | cons a as ih =>
    intro s h
    cases s with
    | nil => simp [startsWithTok] at h
    | cons b bs =>
      by_cases hab : a = b
      · subst hab
        simp only [startsWithTok, if_pos rfl] at h
        obtain ⟨z, hz⟩ := ih bs h
        exact ⟨z, by simp [hz]⟩
      · simp [startsWithTok, hab] at h

lemma startsWith_len (n s : PyStr) (h : startsWithTok n s = true) : n.length ≤ s.length := by
  obtain ⟨z, rfl⟩ := startsWith_dest n s h
  simp

lemma startsWith_mono (n x y : PyStr) (h : startsWithTok n x = true) :
    startsWithTok n (x ++ y) = true := by
  obtain ⟨z, rfl⟩ := startsWith_dest n x h
  rw [List.append_assoc]
  exact startsWith_of_append n (z ++ y)

lemma startsWith_of_append_long (n x y : PyStr) (h : startsWithTok n (x ++ y) = true)
    (hlen : n.length ≤ x.length) : startsWithTok n x = true := by
  obtain ⟨z, hz⟩ := startsWith_dest n _ h
  have hx : x = n ++ z.take (x.length - n.length) := by
    have h1 : (x ++ y).take x.length = x := List.take_left x y
    rw [hz, show x.length = n.length + (x.length - n.length) from by omega,
      List.take_append] at h1
    exact h1.symm
  rw [hx]
  exact startsWith_of_append _ _

lemma startsWith_nil_of_ne (n : PyStr) (hn : n ≠ []) : startsWithTok n [] = false := by
  cases n with
  | nil => exact absurd rfl hn
  | cons a as => rfl

lemma containsTok_of_startsWith (n s : PyStr) (h : startsWithTok n s = true) :
    containsTok n s = true := by
  cases s with
  | nil =>
    cases n with
    | nil => rfl
    | cons a as => simp [startsWithTok] at h
  | cons c rest => simp [containsTok, h]

lemma containsTok_exists : ∀ (h : PyStr) (n : PyStr), containsTok n h = true →
    ∃ k, startsWithTok n (h.drop k) = true := by
  intro h
  induction h with
  | nil =>
    intro n hc
    simp only [containsTok, List.isEmpty_iff] at hc
    subst hc
    exact ⟨0, rfl⟩
  | cons c rest ih =>
    intro n hc
    simp only [containsTok, Bool.or_eq_true] at hc
    rcases hc with hc | hc
    · exact ⟨0, hc⟩
    · obtain ⟨k, hk⟩ := ih n hc
      exact ⟨k + 1, hk⟩

lemma containsTok_eq_false (h n : PyStr)
    (hall : ∀ k, startsWithTok n (h.drop k) = false) : containsTok n h = false := by
  cases hct : containsTok n h
  · rfl
  · obtain ⟨k, hk⟩ := containsTok_exists h n hct
    rw [hall k] at hk
    cases hk

lemma hardFail_spec : ∀ (n p : PyStr), hardFail n p = true → ∀ t, startsWithTok n (p ++ t) = false := by
  intro n
  induction n with
  | nil => intro p h; simp [hardFail] at h
  | cons a as ih =>
    intro p h t
    cases p with
    | nil => simp [hardFail] at h
    | cons b bs =>
      by_cases hab : a = b
      · subst hab
        simp only [hardFail, if_pos rfl] at h
        simp only [List.cons_append, startsWithTok, if_pos rfl]
        exact ih bs h t
      · simp only [List.cons_append, startsWithTok, if_neg hab]

/-- The header marker token cannot occur overlapping itself: started at any
offset inside itself the comparison fails on a character mismatch. -/
lemma headerTok_no_overlap (k : Nat) (t : PyStr) (h1 : 1 ≤ k) (h2 : k < headerTok.length) :
    startsWithTok headerTok (headerTok.drop k ++ t) = false := by
  refine hardFail_spec headerTok (headerTok.drop k) ?_ t
  have hd : ∀ j, j < headerTok.length → 1 ≤ j → hardFail headerTok (headerTok.drop j) = true := by
    decide
  exact hd k h2 h1

/-!
Structure of the lookahead split.
-/

lemma splitAux_cons (m acc : PyStr) (c : Char) (rest : PyStr) :
    splitAux m acc (c :: rest)
      = if startsWithTok m (c :: rest) = true then acc.reverse :: splitAux m [c] rest
        else splitAux m (c :: acc) rest := rfl

lemma splitAux_join (m : PyStr) : ∀ (s acc : PyStr),
    joinAll (splitAux m acc s) = acc.reverse ++ s := by
  intro s
  induction s with
  | nil => intro acc; simp [splitAux, joinAll]
  | cons c rest ih =>
    intro acc
    rw [splitAux_cons]
    by_cases hsw : startsWithTok m (c :: rest) = true
    · rw [if_pos hsw]
      simp [joinAll, ih [c]]
    · rw [if_neg hsw]
      rw [ih (c :: acc)]
      simp

lemma splitAux_ne_nil (m : PyStr) : ∀ (s acc : PyStr), splitAux m acc s ≠ [] := by
  intro s
  induction s with
  | nil => intro acc; simp [splitAux]
  | cons c rest ih =>
    intro acc
    rw [splitAux_cons]
    by_cases hsw : startsWithTok m (c :: rest) = true
    · rw [if_pos hsw]; simp
    · rw [if_neg hsw]; exact ih (c :: acc)

/-- Every piece after the first starts with the marker; if the current piece
began at a marker position, it too starts with the marker. -/
lemma splitAux_marker_parts (m : PyStr)
    (HB : ∀ k t, 1 ≤ k → k < m.length → startsWithTok m (m.drop k ++ t) = false) :
    ∀ (s acc : PyStr) (inMk : Bool),
      (inMk = true → acc ≠ [] ∧ startsWithTok m (acc.reverse ++ s) = true) →
      (inMk = true → ∀ p ∈ splitAux m acc s, startsWithTok m p = true)
      ∧ (∀ p ∈ (splitAux m acc s).tail, startsWithTok m p = true) := by
  intro s
  induction s with
  | nil =>
    intro acc inMk hg
    constructor
    · intro hmk p hp
      simp only [splitAux, List.mem_singleton] at hp
      subst hp
      have := (hg hmk).2
      simpa using this
    · intro p hp
      simp [splitAux] at hp
  | cons ch rest ih =>
    intro acc inMk hg
    by_cases hsw : startsWithTok m (ch :: rest) = true
    · have hrec := ih [ch] true
        (fun _ => ⟨by simp, by simpa using hsw⟩)
      have hall : ∀ p ∈ splitAux m [ch] rest, startsWithTok m p = true := hrec.1 rfl
      have hhead : inMk = true → startsWithTok m acc.reverse = true := by
        intro hmk
        obtain ⟨hne, hsm⟩ := hg hmk
        by_cases hlen : m.length ≤ acc.length
        · exact startsWith_of_append_long m acc.reverse (ch :: rest) hsm
            (by simpa using hlen)
        · exfalso
          obtain ⟨z, hz⟩ := startsWith_dest m _ hsm
          have hdrop : ch :: rest = m.drop acc.length ++ z := by
            have hd1 : (acc.reverse ++ ch :: rest).drop acc.reverse.length = ch :: rest :=
              List.drop_left _ _
            rw [hz, List.length_reverse,
              List.drop_append_of_le_length (by omega)] at hd1
            exact hd1.symm
          rw [hdrop,
            HB acc.length z (by
              have := List.length_pos.mpr hne
              omega) (by omega)] at hsw
          cases hsw
      constructor
      · intro hmk p hp
        rw [splitAux_cons, if_pos hsw] at hp
        rcases List.mem_cons.mp hp with rfl | hp
        · exact hhead hmk
        · exact hall p hp
      · intro p hp
        rw [splitAux_cons, if_pos hsw] at hp
        exact hall p (by simpa using hp)
    · have hg2 : inMk = true → (ch :: acc) ≠ [] ∧
          startsWithTok m ((ch :: acc).reverse ++ rest) = true := by
        intro hmk
        obtain ⟨hne, hsm⟩ := hg hmk
        refine ⟨by simp, ?_⟩
        simpa using hsm
      have hrec := ih (ch :: acc) inMk hg2
      constructor
      · intro hmk p hp
        rw [splitAux_cons, if_neg hsw] at hp
        exact hrec.1 hmk p hp
      · intro p hp
        rw [splitAux_cons, if_neg hsw] at hp
        exact hrec.2 p hp

/-- The marker occurs in no piece at a positive offset: any such occurrence
would itself have been a split point. -/
lemma splitAux_no_internal (m : PyStr) (hm : m ≠ []) :
    ∀ (s acc : PyStr),
      (∀ k, 1 ≤ k → k < acc.length → startsWithTok m ((acc.reverse ++ s).drop k) = false) →
      ∀ p ∈ splitAux m acc s, ∀ k, 1 ≤ k → startsWithTok m (p.drop k) = false := by
  intro s
  induction s with
  | nil =>
    intro acc hinv p hp k hk
    simp only [splitAux, List.mem_singleton] at hp
    subst hp
    by_cases hkl : k < acc.length
    · have := hinv k hk hkl
      simpa using this
    · rw [List.drop_eq_nil_of_le (by simpa using not_lt.mp hkl)]
      exact startsWith_nil_of_ne m hm
  | cons ch rest ih =>
    intro acc hinv p hp k hk
    by_cases hsw : startsWithTok m (ch :: rest) = true
    · rw [splitAux_cons, if_pos hsw] at hp
      rcases List.mem_cons.mp hp with rfl | hp
      · by_cases hkl : k < acc.length
        · cases hsd : startsWithTok m (acc.reverse.drop k)
          · rfl
          · exfalso
            have hmono := startsWith_mono m _ (ch :: rest) hsd
            rw [← List.drop_append_of_le_length (by simp; omega)] at hmono
            rw [hinv k hk hkl] at hmono
            cases hmono
        · rw [List.drop_eq_nil_of_le (by simpa using not_lt.mp hkl)]
          exact startsWith_nil_of_ne m hm
      · exact ih [ch] (by intro j hj1 hj2; simp at hj2; omega) p hp k hk
    · rw [splitAux_cons, if_neg hsw] at hp
      refine ih (ch :: acc) ?_ p hp k hk
      intro j hj1 hj2
      simp only [List.length_cons] at hj2
      by_cases hjl : j < acc.length
      · have := hinv j hj1 hjl
        simpa using this
      · have hje : j = acc.length := by omega
        subst hje
        have hd : ((ch :: acc).reverse ++ rest).drop acc.length = ch :: rest := by
          have hd1 : (acc.reverse ++ ch :: rest).drop acc.reverse.length = ch :: rest :=
            List.drop_left _ _
          rw [List.length_reverse] at hd1
          simp
        rw [hd]
        simpa using hsw

/-- The piece before the first marker occurrence contains no occurrence of
the marker at all. -/
lemma splitAux_head_no_marker (m : PyStr) (hm : m ≠ []) :
    ∀ (s acc : PyStr),
      (∀ k, k < acc.length → startsWithTok m ((acc.reverse ++ s).drop k) = false) →
      containsTok m ((splitAux m acc s).headI) = false := by
  intro s
  induction s with
  | nil =>
    intro acc hinv
    simp only [splitAux, List.headI]
    refine containsTok_eq_false _ _ ?_
    intro k
    by_cases hkl : k < acc.length
    · have := hinv k hkl
      simpa using this
    · rw [List.drop_eq_nil_of_le (by simpa using not_lt.mp hkl)]
      exact startsWith_nil_of_ne m hm
  | cons ch rest ih =>
    intro acc hinv
    by_cases hsw : startsWithTok m (ch :: rest) = true
    · rw [splitAux_cons, if_pos hsw]
      simp only [List.headI]
      refine containsTok_eq_false _ _ ?_
      intro k
      by_cases hkl : k < acc.length
      · cases hsd : startsWithTok m (acc.reverse.drop k)
        · rfl
        · exfalso
          have hmono := startsWith_mono m _ (ch :: rest) hsd
          rw [← List.drop_append_of_le_length (by simp; omega)] at hmono
          rw [hinv k hkl] at hmono
          cases hmono
      · rw [List.drop_eq_nil_of_le (by simpa using not_lt.mp hkl)]
        exact startsWith_nil_of_ne m hm
    · rw [splitAux_cons, if_neg hsw]
      refine ih (ch :: acc) ?_
      intro j hj2
      simp only [List.length_cons] at hj2
      by_cases hjl : j < acc.length
      · have := hinv j hjl
        simpa using this
      · have hje : j = acc.length := by omega
        subst hje
        have hd : ((ch :: acc).reverse ++ rest).drop acc.length = ch :: rest := by
          have hd1 : (acc.reverse ++ ch :: rest).drop acc.reverse.length = ch :: rest :=
            List.drop_left _ _
          rw [List.length_reverse] at hd1
          simp
        rw [hd]
        simpa using hsw

lemma stripRight_ne_nil_of_mem (x : PyStr) (a : Char) (ha : a ∈ x) (hws : isWS a = false) :
    stripRight x ≠ [] := by
  intro h
  rw [stripRight, List.reverse_eq_nil_iff] at h
  have := List.dropWhile_eq_nil_iff.mp h a (by simpa using ha)
  rw [hws] at this
  cases this

lemma keepPart_of_marker_head (p : PyStr) (h : startsWithTok headerTok p = true) :
    keepPart p = true := by
  obtain ⟨z, rfl⟩ := startsWith_dest _ _ h
  have hcons : headerTok ++ z = '#' :: (['#', ' ', '記', '事', 'V', 'o', 'l'] ++ z) := rfl
  have hcont : containsTok headerTok (headerTok ++ z) = true :=
    containsTok_of_startsWith _ _ (startsWith_of_append _ _)
  have hstrip : pyStrip (headerTok ++ z) ≠ [] := by
    rw [hcons, pyStrip, dropWS_cons_of_not_ws '#' _ (by decide)]
    exact stripRight_ne_nil_of_mem _ '#' (by simp) (by decide)
  simp only [keepPart, hcont, Bool.and_true]
  simpa [List.isEmpty_iff] using hstrip

/-!
Title extraction lemmas.
-/

lemma startsWith_append_both (x n s : PyStr) :
    startsWithTok (x ++ n) (x ++ s) = startsWithTok n s := by
  induction x with
  | nil => rfl
  | cons a as ih => simp [startsWithTok, ih]

lemma titleFind_shape : ∀ (part g0 t : PyStr), titleFind part = some (g0, t) →
    g0 = titleTok ++ t ∧ t ≠ [] ∧ '\n' ∉ t := by
  intro part
  induction part with
  | nil => intro g0 t h; simp [titleFind] at h
  | cons c rest ih =>
    intro g0 t h
    by_cases hsw : startsWithTok titleTok (c :: rest) = true
    · simp only [titleFind, hsw, if_true] at h
      by_cases hemp : (((c :: rest).drop titleTok.length).takeWhile
          (fun d => if d = '\n' then false else true)).isEmpty = true
      · rw [if_pos hemp] at h
        exact ih g0 t h
      · rw [if_neg hemp] at h
        injection h with h2
        rw [Prod.mk.injEq] at h2
        obtain ⟨hg, ht⟩ := h2
        subst ht
        refine ⟨hg.symm, ?_, ?_⟩
        · intro he
          exact hemp (by rw [he]; rfl)
        · intro hmem
          have hpred := List.mem_takeWhile_imp hmem
          simp at hpred
    · simp only [titleFind, hsw, if_false, Bool.false_eq_true] at h
      exact ih g0 t h

lemma titleFind_contains : ∀ (part g0 t : PyStr), titleFind part = some (g0, t) →
    containsTok g0 part = true := by
  intro part
  induction part with
  | nil => intro g0 t h; simp [titleFind] at h
  | cons c rest ih =>
    intro g0 t h
    by_cases hsw : startsWithTok titleTok (c :: rest) = true
    · simp only [titleFind, hsw, if_true] at h
      by_cases hemp : (((c :: rest).drop titleTok.length).takeWhile
          (fun d => if d = '\n' then false else true)).isEmpty = true
      · rw [if_pos hemp] at h
        have := ih g0 t h
        simp [containsTok, this]
      · rw [if_neg hemp] at h
        injection h with h2
        rw [Prod.mk.injEq] at h2
        obtain ⟨hg, ht⟩ := h2
        obtain ⟨z, hz⟩ := startsWith_dest _ _ hsw
        refine containsTok_of_startsWith _ _ ?_
        rw [← hg, hz]
        rw [startsWith_append_both]
        rw [List.drop_left]
        nth_rewrite 2 [← List.takeWhile_append_dropWhile
          (p := fun d => if d = '\n' then false else true) (l := z)]
        exact startsWith_of_append _ _
    · simp only [titleFind, hsw, if_false, Bool.false_eq_true] at h
      have := ih g0 t h
      simp [containsTok, this]

lemma mem_of_mem_pyStrip (s : PyStr) (a : Char) (h : a ∈ pyStrip s) : a ∈ s := by
  rw [pyStrip, stripRight, List.mem_reverse] at h
  have h1 : a ∈ (dropWS s).reverse := (List.dropWhile_suffix isWS).sublist.subset h
  rw [List.mem_reverse] at h1
  exact (List.dropWhile_suffix isWS).sublist.subset h1

lemma removeHash_no_hash (s : PyStr) : '#' ∉ removeHash s := by
  intro h
  have := List.of_mem_filter h
  simp at this

lemma fallbackTitle_no_hash (part : PyStr) : '#' ∉ fallbackTitle part := by
  intro h
  exact removeHash_no_hash _ (mem_of_mem_pyStrip _ _ h)

lemma mkArticle_of_titleFind (md : PyStr → PyStr) (part g0 t : PyStr)
    (h : titleFind part = some (g0, t)) :
    mkArticle md part = ⟨pyStrip t, md (pyReplaceDel g0 part)⟩ := by
  simp [mkArticle, h]

lemma mkArticle_of_no_title (md : PyStr → PyStr) (part : PyStr)
    (h : titleFind part = none) :
    mkArticle md part = ⟨fallbackTitle part, md part⟩ := by
  simp [mkArticle, h]

lemma mem_split_articles (md : PyStr → PyStr) (c part : PyStr)
    (hmem : part ∈ splitParts c) (hkeep : keepPart part = true) :
    mkArticle md part ∈ split_articles md c := by
  rw [split_articles]
  exact List.mem_map_of_mem _ (List.mem_filter.mpr ⟨hmem, hkeep⟩)

/-!
Claim theorems.
-/

/-- Claim C1 as stated is false: on a document whose final line is an entry
marker without a trailing newline, the inserted reference merges into that
line on re-reading, the marker still matches, its look-ahead sees only the
leftover blank line, and the second run (with the sources returning exactly
the same results) inserts a second reference, so the second output differs
from the first. -/
theorem claim1_counterexample :
    process_file (fun _ => some ['u', '.', 'j', 'p', 'g']) (fun _ => none)
        (process_file (fun _ => some ['u', '.', 'j', 'p', 'g']) (fun _ => none)
          ['*', '*', '■', ' ', 'A', 'b', ' ', '(', 'C', 'd', ')', ' ', '|', 'x'])
      ≠ process_file (fun _ => some ['u', '.', 'j', 'p', 'g']) (fun _ => none)
          ['*', '*', '■', ' ', 'A', 'b', ' ', '(', 'C', 'd', ')', ' ', '|', 'x'] := by
  decide

/-- Claim C1, amended: enrichment is idempotent for every document that is
empty or ends with a newline (given that the sources return single-line
urls and the same results on both runs); without that proviso the final
line may be an unterminated marker whose inserted reference merges into it
and is inserted again.  Unconditionally, an entry marker line already
immediately followed by an image-reference line is left byte-identical
together with that line, with no insertion for that marker. -/
theorem claim1_amended (A B : PyStr → Option PyStr) (contents : PyStr)
    (hA : ∀ q, nlFree (A q) = true) (hB : ∀ q, nlFree (B q) = true)
    (hend : contents = [] ∨ contents.getLast? = some '\n') :
    process_file A B (process_file A B contents) = process_file A B contents
    ∧ ∀ (M X : PyStr) (post : List PyStr) (jp en : PyStr),
        markerMatch M = some (jp, en) → startsWithTok imgTok (pyStrip X) = true →
        processLines A B (M :: X :: post) = M :: X :: processLines A B post := by
  constructor
  · have hprop := readlines_all_proper contents hend
    have hends : ∀ x ∈ processLines A B (readlines contents), endsNl x :=
      processLines_endsNl A B _ (fun l hl => properLine_endsNl l (hprop l hl))
    unfold process_file
    rw [readlines_joinAll _ hends, processLines_shred_fixed A B hA hB _ hprop]
    exact joinAll_shredList _
  · intro M X post jp en hm hX
    rw [pl_skip A B M (X :: post) jp en hm (by simp [nextIsImage, hX]),
      pl_none A B X post (markerMatch_of_stripImg X hX)]

/-- Witness for the amended claim C1 on a newline-terminated document. -/
theorem claim1_amended_witness :
    process_file (fun _ => some ['u', '.', 'j', 'p', 'g']) (fun _ => none)
        (process_file (fun _ => some ['u', '.', 'j', 'p', 'g']) (fun _ => none)
          ['*', '*', '■', ' ', 'A', 'b', ' ', '(', 'C', 'd', ')', ' ', '|', 'x', '\n'])
      = process_file (fun _ => some ['u', '.', 'j', 'p', 'g']) (fun _ => none)
          ['*', '*', '■', ' ', 'A', 'b', ' ', '(', 'C', 'd', ')', ' ', '|', 'x', '\n'] :=
  (claim1_amended (fun _ => some ['u', '.', 'j', 'p', 'g']) (fun _ => none)
    ['*', '*', '■', ' ', 'A', 'b', ' ', '(', 'C', 'd', ')', ' ', '|', 'x', '\n']
    (fun _ => rfl) (fun _ => rfl) (Or.inr (by decide))).1

/-- Claim C2: for an entry marker line not followed by an image-reference
line, when source A returns a (nonempty) url, the enricher emits, right
after the copied marker line, exactly one new element — the reference of
the stated bang-bracket form followed by a blank line — and every other
line of the document appears in the output unchanged and in its original
order (the prefix survives as a supersequence whose extra elements are all
inserted references, and the suffix is processed unchanged, itself a
supersequence of the original suffix). -/
theorem claim2_insertion (A B : PyStr → Option PyStr) (pre : List PyStr) (M : PyStr)
    (post : List PyStr) (jp en u : PyStr)
    (hm : markerMatch M = some (jp, en)) (hni : nextIsImage post = false)
    (hA : A en = some u) (hu : u ≠ []) :
    ∃ op, processLines A B (pre ++ M :: post)
        = op ++ M :: imgLine jp en u :: processLines A B post
      ∧ List.Sublist pre op ∧ (∀ x ∈ op, x ∈ pre ∨ isInserted x)
      ∧ List.Sublist post (processLines A B post) := by
  obtain ⟨op, heq, hsub, hmem⟩ := processLines_decomp A B pre (M :: post)
  have hp : pickUrl (A en) (B en) = some u := by
    rw [hA]; exact pickUrl_first _ u hu
  refine ⟨op, ?_, hsub, hmem, sublist_processLines A B post⟩
  rw [heq, pl_ins A B M post jp en u hm hni hp]

/-- Witness for claim C2 at a concrete document. -/
theorem claim2_insertion_witness :
    processLines (fun _ => some ['u', '.', 'j', 'p', 'g']) (fun _ => none)
        (['h', 'i', '\n'] :: ['*', '*', '■', ' ', 'A', ' ', '(', 'B', ')', '｜', '\n'] :: [['z', '\n']])
      = [['h', 'i', '\n'], ['*', '*', '■', ' ', 'A', ' ', '(', 'B', ')', '｜', '\n'],
         imgLine ['A'] ['B'] ['u', '.', 'j', 'p', 'g'], ['z', '\n']] := by
  obtain ⟨op, heq, hsub, hmem, hpost⟩ :=
    claim2_insertion (fun _ => some ['u', '.', 'j', 'p', 'g']) (fun _ => none)
      [['h', 'i', '\n']] ['*', '*', '■', ' ', 'A', ' ', '(', 'B', ')', '｜', '\n']
      [['z', '\n']] ['A'] ['B'] ['u', '.', 'j', 'p', 'g']
      (by decide) (by decide) rfl (by decide)
  exact by decide

/-- Claim C3: for an entry marker line not followed by an image-reference
line, when source A yields nothing the enricher falls back to source B
with the same en-name, inserting B's url; and when both sources yield
nothing for every query, the whole document is left unchanged. -/
theorem claim3_fallback (A B : PyStr → Option PyStr) :
    (∀ (M : PyStr) (post : List PyStr) (jp en : PyStr),
      markerMatch M = some (jp, en) → nextIsImage post = false →
      truthy (A en) = false →
      ((∀ u, B en = some u → u ≠ [] →
          processLines A B (M :: post) = M :: imgLine jp en u :: processLines A B post)
        ∧ (truthy (B en) = false →
          processLines A B (M :: post) = M :: processLines A B post)))
    ∧ ((∀ q, truthy (A q) = false) → (∀ q, truthy (B q) = false) →
        ∀ ls, processLines A B ls = ls) := by
  constructor
  · intro M post jp en hm hni hA
    constructor
    · intro u hb hu
      exact pl_ins A B M post jp en u hm hni (pickUrl_fallback _ _ u hA hb hu)
    · intro hB
      exact pl_noins A B M post jp en hm hni (pickUrl_none _ _ hA hB)
  · intro hA hB ls
    induction ls with
    | nil => rfl
    | cons a r ih =>
      cases hmk : markerMatch a with
      | none => rw [pl_none A B a r hmk, ih]
      | some p =>
        obtain ⟨jp, en⟩ := p
        cases hn : nextIsImage r with
        | true => rw [pl_skip A B a r jp en hmk hn, ih]
        | false =>
          rw [pl_noins A B a r jp en hmk hn (pickUrl_none _ _ (hA en) (hB en)), ih]

/-- Witness for claim C3: source A empty, source B supplying the url. -/
theorem claim3_fallback_witness :
    processLines (fun _ => none) (fun _ => some ['v', '.', 'p', 'n', 'g'])
        [['*', '*', '■', ' ', 'A', ' ', '(', 'B', ')', '｜', '\n']]
      = [['*', '*', '■', ' ', 'A', ' ', '(', 'B', ')', '｜', '\n'],
         imgLine ['A'] ['B'] ['v', '.', 'p', 'n', 'g']] := by
  have h :=
    ((claim3_fallback (fun _ => none) (fun _ => some ['v', '.', 'p', 'n', 'g'])).1
        ['*', '*', '■', ' ', 'A', ' ', '(', 'B', ')', '｜', '\n'] [] ['A'] ['B']
        (by decide) (by decide) (by decide)).1
      ['v', '.', 'p', 'n', 'g'] rfl (by decide)
  exact h.trans (by decide)

/-- Claim C7: whenever dry-run is in effect — the explicit flag, or a
placeholder site url detected by the entry point, or any of the three
credentials absent or empty — publishing performs zero network submissions
and produces exactly one simulated-post notice per article, in document
order, each carrying the title, the target endpoint and the truncated
content preview. -/
theorem claim7_dry_run (argvFlag : Bool) (env : Env)
    (net : PyStr → PyStr → Except PyStr Nat) (md : PyStr → PyStr) (c : PyStr)
    (h : argvFlag = true ∨ env.WP_SITE_URL = some placeholderSite ∨
      (truthy env.WP_USER && truthy env.WP_APP_PASSWORD && truthy env.WP_SITE_URL) = false) :
    wpProcess net (posterDryRun argvFlag env) env.WP_SITE_URL md (some c)
      = (split_articles md c).map
          (fun a => PostAction.simulated a.title (postsUrl env.WP_SITE_URL) (a.content.take 100)) := by
  have hdry : posterDryRun argvFlag env = true := by
    rcases h with h | h | h
    · simp [posterDryRun, mainDryRun, h]
    · simp [posterDryRun, mainDryRun, h]
    · simp [posterDryRun, mainDryRun, h]
  simp [wpProcess, hdry, post_article]

/-- Witness for claim C7: missing credentials on a two-article document. -/
theorem claim7_dry_run_witness :
    wpProcess (fun _ _ => Except.error []) (posterDryRun false ⟨none, none, none⟩) none
        (fun s => s)
        (some (headerTok ++ [' ', 'A', '\n'] ++ headerTok ++ [' ', 'B', '\n']))
      = [PostAction.simulated ['記', '事', 'V', 'o', 'l', ' ', 'A'] (postsUrl none)
           ((headerTok ++ [' ', 'A', '\n']).take 100),
         PostAction.simulated ['記', '事', 'V', 'o', 'l', ' ', 'B'] (postsUrl none)
           ((headerTok ++ [' ', 'B', '\n']).take 100)] := by
  have h :=
    claim7_dry_run false ⟨none, none, none⟩ (fun _ _ => Except.error []) (fun s => s)
      (headerTok ++ [' ', 'A', '\n'] ++ headerTok ++ [' ', 'B', '\n'])
      (Or.inr (Or.inr (by decide)))
  exact h.trans (by decide)

/-- Claim C8: in live mode a submission failure on one article is caught
and logged as a failure action and does not abort the batch — the
publisher still produces one action per article, in document order, and in
particular every article after the failing one is still submitted. -/
theorem claim8_failure_continues (net : PyStr → PyStr → Except PyStr Nat)
    (site : Option PyStr) (md : PyStr → PyStr) (c : PyStr)
    (pre : List Article) (a : Article) (post : List Article) (e : PyStr)
    (hsplit : split_articles md c = pre ++ a :: post)
    (hnet : net a.title a.content = Except.error e) :
    wpProcess net false site md (some c)
      = pre.map (post_article net false site)
        ++ PostAction.failed a.title e :: post.map (post_article net false site)
    ∧ (post.map (post_article net false site)).length = post.length := by
  have hfail : post_article net false site a = PostAction.failed a.title e := by
    simp [post_article, hnet]
  constructor
  · simp only [wpProcess, hsplit, List.map_append, List.map_cons, hfail]
  · exact List.length_map _ _

/-- Witness for claim C8: the network rejects the first article, the second
is still submitted and succeeds. -/
theorem claim8_failure_continues_witness :
    wpProcess
        (fun t _ => if t = ['記', '事', 'V', 'o', 'l', ' ', 'A'] then Except.error ['b'] else Except.ok 7)
        false none (fun s => s)
        (some (headerTok ++ [' ', 'A', '\n'] ++ headerTok ++ [' ', 'B', '\n']))
      = [PostAction.failed ['記', '事', 'V', 'o', 'l', ' ', 'A'] ['b'],
         PostAction.posted ['記', '事', 'V', 'o', 'l', ' ', 'B'] 7] := by
  have h :=
    (claim8_failure_continues
      (fun t _ => if t = ['記', '事', 'V', 'o', 'l', ' ', 'A'] then Except.error ['b'] else Except.ok 7)
      none (fun s => s)
      (headerTok ++ [' ', 'A', '\n'] ++ headerTok ++ [' ', 'B', '\n'])
      []
      ⟨['記', '事', 'V', 'o', 'l', ' ', 'A'], headerTok ++ [' ', 'A', '\n']⟩
      [⟨['記', '事', 'V', 'o', 'l', ' ', 'B'], headerTok ++ [' ', 'B', '\n']⟩]
      ['b'] (by decide) rfl).1
  exact h.trans (by decide)

/-- Claim C9: on a missing file both the enricher and the publisher report
and return as no-ops: nothing is written and no submission (real or
simulated) is produced; the result is the same for every image-source,
network and renderer oracle, so none of them is consulted. -/
theorem claim9_missing_file (A B : PyStr → Option PyStr)
    (net : PyStr → PyStr → Except PyStr Nat) (dry : Bool) (site : Option PyStr)
    (md : PyStr → PyStr) :
    process_file_fs A B none = none ∧ wpProcess net dry site md none = [] :=
  ⟨rfl, rfl⟩

/-- Claim C10: an entry marker on the last line of the document (no
following line) does not fault: it is treated as not yet enriched, the
sources decide as usual, and on success the reference element is appended
at the very end of the output; with no url found nothing is appended. -/
theorem claim10_marker_at_end (A B : PyStr → Option PyStr) (pre : List PyStr)
    (M : PyStr) (jp en : PyStr) (hm : markerMatch M = some (jp, en)) :
    (∀ u, pickUrl (A en) (B en) = some u →
      ∃ op, processLines A B (pre ++ [M]) = op ++ [M, imgLine jp en u]
        ∧ List.Sublist pre op)
    ∧ (pickUrl (A en) (B en) = none →
      ∃ op, processLines A B (pre ++ [M]) = op ++ [M] ∧ List.Sublist pre op) := by
  obtain ⟨op, heq, hsub, _⟩ := processLines_decomp A B pre [M]
  constructor
  · intro u hp
    refine ⟨op, ?_, hsub⟩
    rw [heq, pl_ins A B M [] jp en u hm rfl hp, pl_nil]
  · intro hp
    refine ⟨op, ?_, hsub⟩
    rw [heq, pl_noins A B M [] jp en hm rfl hp, pl_nil]

/-- Witness for claim C10: a document whose single line is a marker without
an image line after it. -/
theorem claim10_marker_at_end_witness :
    ∃ op, processLines (fun _ => some ['u']) (fun _ => none)
        ([] ++ [['*', '*', '■', ' ', 'A', ' ', '(', 'B', ')', '｜', '\n']])
      = op ++ [['*', '*', '■', ' ', 'A', ' ', '(', 'B', ')', '｜', '\n'], imgLine ['A'] ['B'] ['u']]
      ∧ List.Sublist [] op := by
  exact
    (claim10_marker_at_end (fun _ => some ['u']) (fun _ => none) []
        ['*', '*', '■', ' ', 'A', ' ', '(', 'B', ')', '｜', '\n'] ['A'] ['B'] (by decide)).1
      ['u'] (by decide)

/-- Claim C4 as stated is false: the split is not anchored to line starts.
On a document whose second header-marker occurrence sits mid-line, the
line-anchored split of the claim yields one article while the code yields
two. -/
theorem claim4_counterexample :
    split_articles (fun s => s)
        (headerTok ++ [' ', 'A', '\n', 'x', 'y'] ++ headerTok ++ [' ', 'B', '\n'])
      ≠ split_articles_lineStart (fun s => s)
        (headerTok ++ [' ', 'A', '\n', 'x', 'y'] ++ headerTok ++ [' ', 'B', '\n'])
    ∧ (split_articles (fun s => s)
        (headerTok ++ [' ', 'A', '\n', 'x', 'y'] ++ headerTok ++ [' ', 'B', '\n'])).length = 2
    ∧ (split_articles_lineStart (fun s => s)
        (headerTok ++ [' ', 'A', '\n', 'x', 'y'] ++ headerTok ++ [' ', 'B', '\n'])).length = 1 := by
  decide

/-- Claim C4, amended: the text is partitioned at every occurrence of the
header marker token (not only at line starts), the marker staying attached
to the following section: the sections concatenate back to the text, every
section after the first begins with the marker, the marker occurs inside
no section at a positive offset, the leading section contains no marker,
and the retained articles — the non-blank sections containing the marker —
are exactly all sections except that leading preamble. -/
theorem claim4_amended (md : PyStr → PyStr) (c : PyStr) :
    joinAll (splitParts c) = c
    ∧ (∀ p ∈ (splitParts c).tail, startsWithTok headerTok p = true)
    ∧ (∀ p ∈ splitParts c, ∀ k, 1 ≤ k → startsWithTok headerTok (p.drop k) = false)
    ∧ containsTok headerTok ((splitParts c).headI) = false
    ∧ split_articles md c = ((splitParts c).tail).map (mkArticle md) := by
  have hjoin : joinAll (splitParts c) = c := by
    have := splitAux_join headerTok c []
    simpa [splitParts] using this
  have htail : ∀ p ∈ (splitParts c).tail, startsWithTok headerTok p = true :=
    (splitAux_marker_parts headerTok headerTok_no_overlap c [] false
      (fun h => by cases h)).2
  have hint : ∀ p ∈ splitParts c, ∀ k, 1 ≤ k → startsWithTok headerTok (p.drop k) = false :=
    splitAux_no_internal headerTok (by decide) c []
      (by intro k h1 h2; simp at h2)
  have hhead : containsTok headerTok ((splitParts c).headI) = false :=
    splitAux_head_no_marker headerTok (by decide) c []
      (by intro k h2; simp at h2)
  refine ⟨hjoin, htail, hint, hhead, ?_⟩
  obtain ⟨p0, tl, hps⟩ : ∃ p0 tl, splitParts c = p0 :: tl := by
    cases hsp : splitParts c with
    | nil => exact absurd hsp (splitAux_ne_nil headerTok c [])
    | cons p0 tl => exact ⟨p0, tl, rfl⟩
  rw [split_articles, hps]
  have hk0 : keepPart p0 = false := by
    have hc0 : containsTok headerTok p0 = false := by
      rw [hps] at hhead
      simpa using hhead
    simp [keepPart, hc0]
  have hktl : ∀ p ∈ tl, keepPart p = true := by
    intro p hp
    refine keepPart_of_marker_head p ?_
    apply htail
    rw [hps]
    simpa using hp
  rw [List.filter_cons, hk0]
  simp only [Bool.false_eq_true, if_false, List.tail_cons]
  rw [List.filter_eq_self.mpr hktl]

/-- Witness for the amended claim C4 on a concrete two-marker document. -/
theorem claim4_amended_witness :
    split_articles (fun s => s)
        (headerTok ++ [' ', 'A', '\n', 'x', 'y'] ++ headerTok ++ [' ', 'B', '\n'])
      = ((splitParts
          (headerTok ++ [' ', 'A', '\n', 'x', 'y'] ++ headerTok ++ [' ', 'B', '\n'])).tail).map
          (mkArticle (fun s => s)) :=
  (claim4_amended (fun s => s)
    (headerTok ++ [' ', 'A', '\n', 'x', 'y'] ++ headerTok ++ [' ', 'B', '\n'])).2.2.2.2

/-- Claim C5 as stated is false: removing the matched title text by global
substring replacement does not always delete the title line — on this
document the two removals reassemble the title line, and the rendered body
(renderer taken as the identity) still contains it. -/
theorem claim5_counterexample :
    (split_articles (fun s => s)
        (headerTok ++ ['1', '\n'] ++ titleTok ++ ['a', 'b', '\n'] ++ titleTok ++ ['a'] ++
          titleTok ++ ['a', 'b', 'b', '\n'])).length = 1
    ∧ (split_articles (fun s => s)
        (headerTok ++ ['1', '\n'] ++ titleTok ++ ['a', 'b', '\n'] ++ titleTok ++ ['a'] ++
          titleTok ++ ['a', 'b', 'b', '\n'])).headI.title = ['a', 'b']
    ∧ containsTok (titleTok ++ ['a', 'b'])
        ((split_articles (fun s => s)
          (headerTok ++ ['1', '\n'] ++ titleTok ++ ['a', 'b', '\n'] ++ titleTok ++ ['a'] ++
            titleTok ++ ['a', 'b', 'b', '\n'])).headI.content) = true := by
  decide

/-- Claim C5, amended: for a retained section whose title search succeeds,
the article's title is the matched rest-of-line capture stripped of
surrounding whitespace, and its body is the section with the non-overlapping
occurrences of the whole matched text (title token plus capture, which does
occur in the section, contains no newline and excludes the terminator)
removed left to right before rendering; the leftover whitespace of the
title line remains, and the removal may reassemble the title text. -/
theorem claim5_amended (md : PyStr → PyStr) (c part g0 t : PyStr)
    (hmem : part ∈ splitParts c) (hkeep : keepPart part = true)
    (hfind : titleFind part = some (g0, t)) :
    mkArticle md part ∈ split_articles md c
    ∧ (mkArticle md part).title = pyStrip t
    ∧ (mkArticle md part).content = md (pyReplaceDel g0 part)
    ∧ g0 = titleTok ++ t ∧ t ≠ [] ∧ '\n' ∉ t
    ∧ containsTok g0 part = true := by
  obtain ⟨hg, ht, hn⟩ := titleFind_shape part g0 t hfind
  refine ⟨mem_split_articles md c part hmem hkeep, ?_, ?_, hg, ht, hn,
    titleFind_contains part g0 t hfind⟩
  · rw [mkArticle_of_titleFind md part g0 t hfind]
  · rw [mkArticle_of_titleFind md part g0 t hfind]

/-- Witness for the amended claim C5 on a concrete titled document. -/
theorem claim5_amended_witness :
    (mkArticle (fun s => s) (headerTok ++ ['1', '\n'] ++ titleTok ++ ['T', '\n'])).title
      = pyStrip ['T'] :=
  (claim5_amended (fun s => s) (headerTok ++ ['1', '\n'] ++ titleTok ++ ['T', '\n'])
    (headerTok ++ ['1', '\n'] ++ titleTok ++ ['T', '\n'])
    (titleTok ++ ['T']) ['T'] (by decide) (by decide) (by decide)).2.1

/-- Claim C6 as stated is false: the fallback strips every hash character
of the first line, not only the leading header hashes — a hash in the
middle of the line is deleted too. -/
theorem claim6_counterexample :
    (split_articles (fun s => s)
        (headerTok ++ ['1', ' ', '#', '5', '\n', 'b', '\n'])).map Article.title
      = [['記', '事', 'V', 'o', 'l', '1', ' ', '5']]
    ∧ specFallbackTitle (headerTok ++ ['1', ' ', '#', '5', '\n', 'b', '\n'])
      = ['記', '事', 'V', 'o', 'l', '1', ' ', '#', '5']
    ∧ (['記', '事', 'V', 'o', 'l', '1', ' ', '5'] : PyStr)
      ≠ ['記', '事', 'V', 'o', 'l', '1', ' ', '#', '5'] := by
  decide

/-- Claim C6, amended: for a retained section with no title-marker match,
the article title is the first line of the stripped section with every
hash character removed (wherever it occurs) and surrounding whitespace
stripped; in particular the produced title never contains a hash. -/
theorem claim6_amended (md : PyStr → PyStr) (c part : PyStr)
    (hmem : part ∈ splitParts c) (hkeep : keepPart part = true)
    (hfind : titleFind part = none) :
    mkArticle md part ∈ split_articles md c
    ∧ (mkArticle md part).title = pyStrip (removeHash (firstLineOf (pyStrip part)))
    ∧ '#' ∉ (mkArticle md part).title := by
  refine ⟨mem_split_articles md c part hmem hkeep, ?_, ?_⟩
  · rw [mkArticle_of_no_title md part hfind]
    rfl
  · rw [mkArticle_of_no_title md part hfind]
    exact fallbackTitle_no_hash part

/-- Witness for the amended claim C6 on a concrete untitled document. -/
theorem claim6_amended_witness :
    (mkArticle (fun s => s) (headerTok ++ [' ', 'A', '\n'])).title
      = pyStrip (removeHash (firstLineOf (pyStrip (headerTok ++ [' ', 'A', '\n'])))) :=
  (claim6_amended (fun s => s) (headerTok ++ [' ', 'A', '\n']) (headerTok ++ [' ', 'A', '\n'])
    (by decide) (by decide) (by decide)).2.1

end AutoPoster
